import Mathlib

/-!
Verification of the adaptive multiple-proposal QMCMC sampler for Bayesian
linear regression (`BayesianLinReg.py`).

The engine is shallowly embedded: the per-iteration body of the simulation
loop becomes a pure `step` function on an explicit `EngineState`, the
external collaborators (`DataGen`, `SeedGen`, `scipy.stats.norm.ppf`,
`numpy.linalg.cholesky`) become oracle fields of a `Config` record, and
NumPy array arithmetic becomes exact real arithmetic over `Fin`-indexed
vectors and `Matrix`.
-/

namespace MPQMCMC

/-! ### Stable weight normalization (BayesianLinReg.py, lines 163-167)

The code sorts the log-weights ascending, anchors at the smallest one,
adds `log(1 + sum of exponentials of the rest relative to the anchor)`,
subtracts the resulting log-sum-exp from each log-weight and exponentiates. -/

/-- Ascending sort of a list of reals, as `numpy.sort` produces. -/
noncomputable def sortAsc (l : List ℝ) : List ℝ := l.insertionSort (· ≤ ·)

/-- Log-sum-exp anchored at the smallest element, exactly as lines 164-166
compute it: `Sorted[0] + log(1 + sum(exp(Sorted[1:] - Sorted[0])))`. -/
noncomputable def logSumExpMin (l : List ℝ) : ℝ :=
  (sortAsc l).headD 0 +
    Real.log (1 + (((sortAsc l).drop 1).map
      (fun x => Real.exp (x - (sortAsc l).headD 0))).sum)

/-- The implemented normalization: subtract the anchored log-sum-exp from
every log-weight, then exponentiate (lines 165-167). -/
noncomputable def stableNormalize (l : List ℝ) : List ℝ :=
  l.map (fun x => Real.exp (x - logSumExpMin l))

/-- Reference scheme for the refinement claim, written from the spec's
words rather than the source: exponentiate each log-weight and divide by
the sum of all the exponentials (the naive normalization the spec's
differential test compares against). -/
noncomputable def naiveNormalize (l : List ℝ) : List ℝ :=
  l.map (fun x => Real.exp x / (l.map Real.exp).sum)

/-- The same normalization applied to a `Fin`-indexed vector of
log-weights, as used for the `Pstates` vector inside the loop. -/
noncomputable def normalizeFun {m : ℕ} (L : Fin m → ℝ) : Fin m → ℝ :=
  fun i => Real.exp (L i - logSumExpMin (List.ofFn L))

lemma sortAsc_perm (l : List ℝ) : List.Perm (sortAsc l) l :=
  List.perm_insertionSort _ l

lemma sortAsc_ne_nil {l : List ℝ} (hl : l ≠ []) : sortAsc l ≠ [] := by
  intro h
  apply hl
  have hp := sortAsc_perm l
  rw [h] at hp
  exact (List.Perm.nil_eq hp).symm

/-- Over exact real arithmetic the anchored log-sum-exp is the log of the
sum of the exponentials. -/
lemma exp_logSumExpMin (l : List ℝ) (hl : l ≠ []) :
    Real.exp (logSumExpMin l) = (l.map Real.exp).sum := by
  obtain ⟨a, rest, hrest⟩ := List.exists_cons_of_ne_nil (sortAsc_ne_nil hl)
  have hsum : ((sortAsc l).map Real.exp).sum = (l.map Real.exp).sum :=
    List.Perm.sum_eq (List.Perm.map _ (sortAsc_perm l))
  have hnn : (0:ℝ) ≤ (rest.map (fun x => Real.exp (x - a))).sum := by
    apply List.sum_nonneg
    intro x hx
    obtain ⟨y, _, rfl⟩ := List.mem_map.mp hx
    exact (Real.exp_pos _).le
  have hpos : (0:ℝ) < 1 + (rest.map (fun x => Real.exp (x - a))).sum := by
    linarith
  rw [logSumExpMin, hrest]
  simp only [List.headD_cons, List.drop_succ_cons, List.drop_zero]
  rw [Real.exp_add, Real.exp_log hpos]
  have hmul : Real.exp a * (1 + (rest.map (fun x => Real.exp (x - a))).sum)
      = Real.exp a + (rest.map Real.exp).sum := by
    have h1 : (rest.map (fun x => Real.exp (x - a))).sum * Real.exp a
        = (rest.map Real.exp).sum := by
      rw [← List.sum_map_mul_right]
      congr 1
      apply List.map_congr_left
      intro x _
      rw [← Real.exp_add, sub_add_cancel]
    calc Real.exp a * (1 + (rest.map (fun x => Real.exp (x - a))).sum)
        = Real.exp a + (rest.map (fun x => Real.exp (x - a))).sum * Real.exp a := by
          ring
      _ = Real.exp a + (rest.map Real.exp).sum := by rw [h1]
  rw [hmul, ← hsum, hrest]
  simp

lemma sum_map_exp_pos (l : List ℝ) (hl : l ≠ []) :
    (0:ℝ) < (l.map Real.exp).sum := by
  rw [← exp_logSumExpMin l hl]
  exact Real.exp_pos _

/-- Over exact real arithmetic, the implemented stable normalization agrees
with the naive exponentiate-then-divide scheme. -/
lemma stableNormalize_eq_naiveNormalize (l : List ℝ) (hl : l ≠ []) :
    stableNormalize l = naiveNormalize l := by
  unfold stableNormalize naiveNormalize
  apply List.map_congr_left
  intro x _
  rw [Real.exp_sub, exp_logSumExpMin l hl]

/-- The normalized vector of any nonempty log-weight vector sums to one. -/
lemma normalizeFun_sum_one {m : ℕ} (L : Fin (m + 1) → ℝ) :
    ∑ i, normalizeFun L i = 1 := by
  have hne : List.ofFn L ≠ [] := by
    apply List.ne_nil_of_length_pos
    rw [List.length_ofFn]
    exact Nat.succ_pos m
  have hsum : ((List.ofFn L).map Real.exp).sum = ∑ i, Real.exp (L i) := by
    rw [← List.sum_ofFn]
    congr 1
    rw [List.map_ofFn]
    rfl
  have hpos : (0:ℝ) < ∑ i, Real.exp (L i) := by
    rw [← hsum]
    exact sum_map_exp_pos _ hne
  unfold normalizeFun
  simp only [Real.exp_sub]
  rw [← Finset.sum_div, exp_logSumExpMin _ hne, hsum]
  exact div_self (ne_of_gt hpos)

lemma normalizeFun_nonneg {m : ℕ} (L : Fin m → ℝ) (i : Fin m) :
    0 ≤ normalizeFun L i :=
  (Real.exp_pos _).le

/-! ### Engine configuration and state

`Config d nObs` bundles the constructor arguments of `BayesianLinReg`
together with the external collaborators: the design matrix `X`,
observations `Obs` and sample count `nObs` produced by `DataGen`; the
point stream `xs` produced by `SeedGen`; the inverse normal CDF
`normppf value scale` (scipy's `norm.ppf(value, loc=0, scale=scale)`); and
the Cholesky factorization oracle `chol` (`numpy.linalg.cholesky`).
Matrix inversion (`numpy.linalg.inv`) is embedded as Mathlib's `Matrix`
inverse. -/

structure Config (d nObs : ℕ) where
  alpha : ℝ
  x0 : Fin d → ℝ
  N : ℕ
  StepSize : ℝ
  PowerOfTwo : ℕ
  InitMean : Fin d → ℝ
  InitCov : Matrix (Fin d) (Fin d) ℝ
  WeightIn : ℕ
  X : Matrix (Fin nObs) (Fin d) ℝ
  Obs : Fin nObs → ℝ
  xs : ℕ → Fin (d + 1) → ℝ
  normppf : ℝ → ℝ → ℝ
  chol : Matrix (Fin d) (Fin d) ℝ → Matrix (Fin d) (Fin d) ℝ

variable {d nObs : ℕ}

/-- Total iteration count, line 92:
`NumOfIter = int(int((2**PowerOfTwo-1)/(d+1))*(d+1)/(N))`. -/
def NumOfIter (cfg : Config d nObs) : ℕ :=
  (2 ^ cfg.PowerOfTwo - 1) / (d + 1) * (d + 1) / cfg.N

/-- Seeded burn-in block length, line 104: `M = int(WeightIn/N)+1`. -/
def M (cfg : Config d nObs) : ℕ := cfg.WeightIn / cfg.N + 1

/-- Zellner g-prior covariance, lines 77-79:
`g = 1/NumOfSamples; sigmaSq = 1/alpha; G_prior = sigmaSq/g * inv(X.T X)`. -/
noncomputable def G_prior (cfg : Config d nObs) : Matrix (Fin d) (Fin d) ℝ :=
  ((1 / cfg.alpha) / (1 / (nObs : ℝ))) • (cfg.X.transpose * cfg.X)⁻¹

/-- Inverse of the g-prior covariance, line 80: `InvG_prior = inv(G_prior)`. -/
noncomputable def InvG_prior (cfg : Config d nObs) : Matrix (Fin d) (Fin d) ℝ :=
  (G_prior cfg)⁻¹

/-- The mutable state of one engine instance: the sample batches `xVals`,
acceptance batches `AcceptVals`, the accumulator slot arrays, the adaptive
proposal moments and the current state `xI`. -/
structure EngineState (d : ℕ) where
  xVals : List (List (Fin d → ℝ))
  AcceptVals : List (List ℝ)
  WeightedSum : ℕ → Fin d → ℝ
  WeightedCov : ℕ → Matrix (Fin d) (Fin d) ℝ
  WeightedFunSum : ℕ → Fin d → ℝ
  ApprPostMean : Fin d → ℝ
  ApprPostCov : Matrix (Fin d) (Fin d) ℝ
  CholApprPostCov : Matrix (Fin d) (Fin d) ℝ
  InvApprPostCov : Matrix (Fin d) (Fin d) ℝ
  xI : Fin d → ℝ

/-- Engine state after the initialisation block (lines 87-122): slots
`0..M-1` of `WeightedSum`/`WeightedCov` are seeded with the supplied
initial mean/covariance, `WeightedFunSum` is all zeros, and the adaptive
moments start at `InitMean`/`InitCov` with their Cholesky factor and
inverse. -/
noncomputable def initState (cfg : Config d nObs) : EngineState d where
  xVals := [[cfg.x0]]
  AcceptVals := []
  WeightedSum := fun k => if k < M cfg then cfg.InitMean else fun _ => 0
  WeightedCov := fun k => if k < M cfg then cfg.InitCov else 0
  WeightedFunSum := fun _ _ => 0
  ApprPostMean := cfg.InitMean
  ApprPostCov := cfg.InitCov
  CholApprPostCov := cfg.chol cfg.InitCov
  InvApprPostCov := cfg.InitCov⁻¹
  xI := cfg.x0

/-! ### One iteration of the simulation loop (lines 129-210) -/

/-- Row `k` of the block of stream points read in iteration `n`, line 136:
`U = xs[n*N:(n+1)*N, :]`, so `U[k][j] = xs[n*N+k][j]`. -/
def U (cfg : Config d nObs) (n k : ℕ) (j : Fin (d + 1)) : ℝ :=
  cfg.xs (n * cfg.N + k) j

/-- Freshly drawn candidate states, lines 139-140:
`y = ApprPostMean + dot(norm.ppf(U[:,:d], loc=0, scale=StepSize), CholApprPostCov)`. -/
noncomputable def proposalY (cfg : Config d nObs) (n : ℕ) (s : EngineState d)
    (k : Fin cfg.N) : Fin d → ℝ :=
  fun j => s.ApprPostMean j +
    ∑ i : Fin d,
      cfg.normppf (U cfg n (k : ℕ) (Fin.castSucc i)) cfg.StepSize *
        s.CholApprPostCov i j

/-- The proposal set, line 143: the current state `xI` inserted at index 0
in front of the `N` fresh candidates. -/
noncomputable def Proposals (cfg : Config d nObs) (n : ℕ) (s : EngineState d) :
    Fin (cfg.N + 1) → Fin d → ℝ :=
  Fin.cases s.xI (proposalY cfg n s)

/-- Log-priors, line 151: diagonal of
`-0.5 * Proposals · InvG_prior · Proposalsᵀ`. -/
noncomputable def LogPriors (cfg : Config d nObs) (n : ℕ) (s : EngineState d)
    (i : Fin (cfg.N + 1)) : ℝ :=
  -(1 / 2) * ∑ j, ∑ k,
    Proposals cfg n s i j * InvG_prior cfg j k * Proposals cfg n s i k

/-- Log-likelihoods, lines 152-153: diagonal of
`-0.5 * alpha * (Obs - X·Proposalsᵀ)·(Obs - X·Proposalsᵀ)ᵀ`. -/
noncomputable def LogLikelihoods (cfg : Config d nObs) (n : ℕ)
    (s : EngineState d) (i : Fin (cfg.N + 1)) : ℝ :=
  -(1 / 2) * cfg.alpha *
    ∑ m, (cfg.Obs m - ∑ j, cfg.X m j * Proposals cfg n s i j) ^ 2

/-- Log-posteriors, line 154. -/
noncomputable def LogPosteriors (cfg : Config d nObs) (n : ℕ)
    (s : EngineState d) (i : Fin (cfg.N + 1)) : ℝ :=
  LogPriors cfg n s i + LogLikelihoods cfg n s i

/-- Log transition densities, lines 157-158: diagonal of
`-0.5 * (P - mean) · (InvApprPostCov/StepSize²) · (P - mean)ᵀ`. -/
noncomputable def LogK_ni (cfg : Config d nObs) (n : ℕ) (s : EngineState d)
    (i : Fin (cfg.N + 1)) : ℝ :=
  -(1 / 2) * ∑ j, ∑ k,
    (Proposals cfg n s i j - s.ApprPostMean j) *
      (s.InvApprPostCov j k / cfg.StepSize ^ 2) *
      (Proposals cfg n s i k - s.ApprPostMean k)

/-- Symmetrized reverse-kernel term, line 159:
`LogKs = sum(LogK_ni) - LogK_ni`. -/
noncomputable def LogKs (cfg : Config d nObs) (n : ℕ) (s : EngineState d)
    (i : Fin (cfg.N + 1)) : ℝ :=
  (∑ j, LogK_ni cfg n s j) - LogK_ni cfg n s i

/-- Unnormalized log-weights, line 163: `LogPstates = LogPosteriors + LogKs`. -/
noncomputable def LogPstates (cfg : Config d nObs) (n : ℕ) (s : EngineState d)
    (i : Fin (cfg.N + 1)) : ℝ :=
  LogPosteriors cfg n s i + LogKs cfg n s i

/-- Normalized importance weights, lines 164-167. -/
noncomputable def Pstates (cfg : Config d nObs) (n : ℕ) (s : EngineState d) :
    Fin (cfg.N + 1) → ℝ :=
  normalizeFun (LogPstates cfg n s)

/-- Weighted-sum slot array after the write at line 176: slot `n+M`
receives `sum(tile(Pstates,(d,1)) * Proposals.T, axis=1)`. -/
noncomputable def newWeightedSum (cfg : Config d nObs) (n : ℕ)
    (s : EngineState d) : ℕ → Fin d → ℝ :=
  fun k => if k = n + M cfg
    then fun j => ∑ i, Pstates cfg n s i * Proposals cfg n s i j
    else s.WeightedSum k

/-- Updated running posterior mean, line 179:
`ApprPostMean = mean(WeightedSum[:n+M+1,:], axis=0)`. -/
noncomputable def newApprPostMean (cfg : Config d nObs) (n : ℕ)
    (s : EngineState d) : Fin d → ℝ :=
  fun j => (∑ k ∈ Finset.range (n + M cfg + 1), newWeightedSum cfg n s k j) /
    ((n + M cfg + 1 : ℕ) : ℝ)

/-- Weighted-covariance slot array after the write at lines 182-185: slot
`n+M` receives the weighted sum of outer products of the centered
proposals, centered at the just-updated mean. -/
noncomputable def newWeightedCov (cfg : Config d nObs) (n : ℕ)
    (s : EngineState d) : ℕ → Matrix (Fin d) (Fin d) ℝ :=
  fun m => if m = n + M cfg
    then fun j k => ∑ i, Pstates cfg n s i *
      ((Proposals cfg n s i j - newApprPostMean cfg n s j) *
        (Proposals cfg n s i k - newApprPostMean cfg n s k))
    else s.WeightedCov m

/-- Covariance-refresh guard of line 189: `n > 2*d/N` with Python's true
division, i.e. the exact rational comparison. -/
def covGuard (d N n : ℕ) : Prop := 2 * (d : ℚ) / (N : ℚ) < (n : ℚ)

instance (d N n : ℕ) : Decidable (covGuard d N n) := by
  unfold covGuard
  infer_instance

/-- Mean of the weighted-covariance slots `0..n+M`, the matrix assigned to
`ApprPostCov` at line 190 when the guard holds. -/
noncomputable def covSlotMean (cfg : Config d nObs) (n : ℕ)
    (s : EngineState d) : Matrix (Fin d) (Fin d) ℝ :=
  fun j k => (∑ m ∈ Finset.range (n + M cfg + 1), newWeightedCov cfg n s m j k) /
    ((n + M cfg + 1 : ℕ) : ℝ)

/-- Approximate posterior covariance after lines 189-190. -/
noncomputable def newApprPostCov (cfg : Config d nObs) (n : ℕ)
    (s : EngineState d) : Matrix (Fin d) (Fin d) ℝ :=
  if covGuard d cfg.N n then covSlotMean cfg n s else s.ApprPostCov

/-- Cholesky factor after line 191: refreshed only under the guard. -/
noncomputable def newCholApprPostCov (cfg : Config d nObs) (n : ℕ)
    (s : EngineState d) : Matrix (Fin d) (Fin d) ℝ :=
  if covGuard d cfg.N n then cfg.chol (covSlotMean cfg n s)
  else s.CholApprPostCov

/-- Inverse covariance after lines 187 and 192: line 187 recomputes it
unconditionally from the (still unchanged) `ApprPostCov`; under the guard
line 192 recomputes it from the refreshed covariance. -/
noncomputable def newInvApprPostCov (cfg : Config d nObs) (n : ℕ)
    (s : EngineState d) : Matrix (Fin d) (Fin d) ℝ :=
  if covGuard d cfg.N n then (covSlotMean cfg n s)⁻¹ else s.ApprPostCov⁻¹

/-- Cumulative sums, line 199: `PstatesSum = cumsum(Pstates)`. -/
noncomputable def cumsum (l : List ℝ) : List ℝ :=
  (List.range l.length).map (fun i => (l.take (i + 1)).sum)

/-- Left insertion point by binary search, line 200: `numpy.searchsorted`
returns the first index whose element is `≥ v`, or the length if none is. -/
noncomputable def searchsorted (a : List ℝ) (v : ℝ) : ℕ :=
  a.findIdx (fun x => decide (v ≤ x))

/-- Resampling index for draw `k`, line 200: binary search of the `k`-th
entry of the block's last stream column against the cumulative weights. -/
noncomputable def resampleIdx (cfg : Config d nObs) (n : ℕ)
    (s : EngineState d) (k : ℕ) : ℕ :=
  searchsorted (cumsum (List.ofFn (Pstates cfg n s))) (U cfg n k (Fin.last d))

/-- Resampled state for draw `k`, line 201: `Proposals[Is]` (out-of-range
indices, which the bounds theorem rules out, default to the zero vector). -/
noncomputable def newXVal (cfg : Config d nObs) (n : ℕ) (s : EngineState d)
    (k : ℕ) : Fin d → ℝ :=
  (List.ofFn (Proposals cfg n s)).getD (resampleIdx cfg n s k) (fun _ => 0)

/-- Acceptance statistic for draw `k`, line 205: `1 - Pstates[Is]`. -/
noncomputable def newAcceptVal (cfg : Config d nObs) (n : ℕ)
    (s : EngineState d) (k : ℕ) : ℝ :=
  1 - (List.ofFn (Pstates cfg n s)).getD (resampleIdx cfg n s k) 0

/-- One iteration of the simulation loop (lines 129-210). -/
noncomputable def step (cfg : Config d nObs) (n : ℕ) (s : EngineState d) :
    EngineState d where
  xVals := s.xVals ++ [(List.range cfg.N).map (newXVal cfg n s)]
  AcceptVals := s.AcceptVals ++ [(List.range cfg.N).map (newAcceptVal cfg n s)]
  WeightedSum := newWeightedSum cfg n s
  WeightedCov := newWeightedCov cfg n s
  WeightedFunSum := s.WeightedFunSum
  ApprPostMean := newApprPostMean cfg n s
  ApprPostCov := newApprPostCov cfg n s
  CholApprPostCov := newCholApprPostCov cfg n s
  InvApprPostCov := newInvApprPostCov cfg n s
  xI := newXVal cfg n s (cfg.N - 1)

/-- Engine state after the first `n` iterations of the loop. -/
noncomputable def run (cfg : Config d nObs) : ℕ → EngineState d
  | 0 => initState cfg
  | n + 1 => step cfg n (run cfg n)

/-! ### Query accessors (lines 213-321)

Each accessor is embedded in state-passing style: it returns its value
together with the engine state it leaves behind, so that the purity claim
is expressible. -/

/-- Lines 213-231: concatenate the batches `xVals[1:]` and drop the first
`BurnIn` rows. -/
noncomputable def getSamples (s : EngineState d) (BurnIn : ℕ) :
    List (Fin d → ℝ) × EngineState d :=
  (((s.xVals.drop 1).flatten).drop BurnIn, s)

/-- Lines 234-253: mean of the concatenated acceptance values after
`BurnIn`. -/
noncomputable def getAcceptRate (s : EngineState d) (BurnIn : ℕ) :
    ℝ × EngineState d :=
  ((((s.AcceptVals.flatten).drop BurnIn).sum /
    (((s.AcceptVals.flatten).drop BurnIn).length : ℝ)), s)

/-- Lines 256-276: mean over the weighted-sum slots from `int(BurnIn/N)`
to the end of the array (the array has `NumOfIter + M` rows). -/
noncomputable def getIS_MeanEstimate (cfg : Config d nObs) (s : EngineState d)
    (Nq BurnIn : ℕ) : (Fin d → ℝ) × EngineState d :=
  ((fun j => (∑ k ∈ Finset.Ico (BurnIn / Nq) (NumOfIter cfg + M cfg),
      s.WeightedSum k j) / ((NumOfIter cfg + M cfg - BurnIn / Nq : ℕ) : ℝ)), s)

/-- Lines 279-299: same slot mean over the (never written)
`WeightedFunSum` array. -/
noncomputable def getIS_FunMeanEstimate (cfg : Config d nObs)
    (s : EngineState d) (Nq BurnIn : ℕ) : (Fin d → ℝ) × EngineState d :=
  ((fun j => (∑ k ∈ Finset.Ico (BurnIn / Nq) (NumOfIter cfg + M cfg),
      s.WeightedFunSum k j) / ((NumOfIter cfg + M cfg - BurnIn / Nq : ℕ) : ℝ)), s)

/-- Lines 302-321: same slot mean over the weighted-covariance array. -/
noncomputable def getIS_CovEstimate (cfg : Config d nObs) (s : EngineState d)
    (Nq BurnIn : ℕ) : Matrix (Fin d) (Fin d) ℝ × EngineState d :=
  ((fun j k => (∑ m ∈ Finset.Ico (BurnIn / Nq) (NumOfIter cfg + M cfg),
      s.WeightedCov m j k) / ((NumOfIter cfg + M cfg - BurnIn / Nq : ℕ) : ℝ)), s)

/-! ### Concrete configurations used to instantiate theorems -/

/-- Concrete configuration with `d = 1`, one observation, `N = 1`,
`PowerOfTwo = 2`, trivial external oracles. -/
noncomputable def cfgW : Config 1 1 where
  alpha := 1
  x0 := fun _ => 0
  N := 1
  StepSize := 1
  PowerOfTwo := 2
  InitMean := fun _ => 0
  InitCov := 1
  WeightIn := 0
  X := 1
  Obs := fun _ => 0
  xs := fun _ _ => 0
  normppf := fun _ _ => 0
  chol := fun A => A

/-- Concrete configuration with `d = 2` and `N = 1`, the instance the
spec uses to exercise the covariance-update guard. -/
noncomputable def cfgW2 : Config 2 1 where
  alpha := 1
  x0 := fun _ => 0
  N := 1
  StepSize := 1
  PowerOfTwo := 2
  InitMean := fun _ => 0
  InitCov := 1
  WeightIn := 0
  X := fun _ _ => 1
  Obs := fun _ => 0
  xs := fun _ _ => 0
  normppf := fun _ _ => 0
  chol := fun A => A

/-- Concrete configuration with `d = 1` and two observations, design
matrix all ones, `alpha = 1`; used for the g-prior computation. -/
noncomputable def cfgC5 : Config 1 2 where
  alpha := 1
  x0 := fun _ => 0
  N := 1
  StepSize := 1
  PowerOfTwo := 2
  InitMean := fun _ => 0
  InitCov := 1
  WeightIn := 0
  X := fun _ _ => 1
  Obs := fun _ => 0
  xs := fun _ _ => 0
  normppf := fun _ _ => 0
  chol := fun A => A

/-! ### Helper lemmas about the loop state -/

lemma covGuard_iff (d N n : ℕ) (hN : 1 ≤ N) :
    covGuard d N n ↔ 2 * d < n * N := by
  unfold covGuard
  rw [div_lt_iff₀ (by exact_mod_cast hN : (0:ℚ) < (N:ℚ))]
  exact_mod_cast Iff.rfl

lemma run_succ (cfg : Config d nObs) (n : ℕ) :
    run cfg (n + 1) = step cfg n (run cfg n) := rfl

lemma run_cov_unchanged (cfg : Config d nObs) (n : ℕ)
    (h : ∀ m, m < n → ¬ covGuard d cfg.N m) :
    (run cfg n).ApprPostCov = cfg.InitCov ∧
      (run cfg n).CholApprPostCov = cfg.chol cfg.InitCov := by
  induction n with
  | zero => exact ⟨rfl, rfl⟩
  | succ k ih =>
    have hk := ih (fun m hm => h m (Nat.lt_succ_of_lt hm))
    have hg := h k (Nat.lt_succ_self k)
    rw [run_succ]
    constructor
    · show newApprPostCov cfg k (run cfg k) = cfg.InitCov
      rw [newApprPostCov, if_neg hg]
      exact hk.1
    · show newCholApprPostCov cfg k (run cfg k) = cfg.chol cfg.InitCov
      rw [newCholApprPostCov, if_neg hg]
      exact hk.2

lemma run_weightedSum_seed (cfg : Config d nObs) (t k : ℕ) (hk : k < M cfg) :
    (run cfg t).WeightedSum k = cfg.InitMean := by
  induction t with
  | zero =>
    show (if k < M cfg then cfg.InitMean else fun _ => 0) = cfg.InitMean
    rw [if_pos hk]
  | succ m ih =>
    rw [run_succ]
    show newWeightedSum cfg m (run cfg m) k = cfg.InitMean
    rw [newWeightedSum]
    rw [if_neg (by omega : ¬ k = m + M cfg)]
    exact ih

lemma run_weightedFunSum (cfg : Config d nObs) (n : ℕ) :
    (run cfg n).WeightedFunSum = fun _ _ => 0 := by
  induction n with
  | zero => rfl
  | succ k ih =>
    rw [run_succ]
    show (run cfg k).WeightedFunSum = _
    exact ih

lemma cumsum_length (l : List ℝ) : (cumsum l).length = l.length := by
  unfold cumsum
  rw [List.length_map, List.length_range]

lemma sum_mem_cumsum (l : List ℝ) (hl : l ≠ []) : l.sum ∈ cumsum l := by
  unfold cumsum
  refine List.mem_map.mpr ⟨l.length - 1, List.mem_range.mpr ?_, ?_⟩
  · have := List.length_pos.mpr hl
    omega
  · have h : l.length - 1 + 1 = l.length := by
      have := List.length_pos.mpr hl
      omega
    rw [h, List.take_length]

lemma searchsorted_lt_length (a : List ℝ) (v : ℝ) (h : ∃ x ∈ a, v ≤ x) :
    searchsorted a v < a.length := by
  unfold searchsorted
  apply List.findIdx_lt_length_of_exists
  obtain ⟨x, hx, hvx⟩ := h
  exact ⟨x, hx, by simpa using hvx⟩

lemma resampleIdx_le (cfg : Config d nObs) (n : ℕ) (s : EngineState d) (k : ℕ)
    (hU : U cfg n k (Fin.last d) < 1) :
    resampleIdx cfg n s k ≤ cfg.N := by
  have hsum : (List.ofFn (Pstates cfg n s)).sum = 1 := by
    rw [List.sum_ofFn]
    exact normalizeFun_sum_one _
  have hne : List.ofFn (Pstates cfg n s) ≠ [] := by
    apply List.ne_nil_of_length_pos
    rw [List.length_ofFn]
    omega
  have hmem := sum_mem_cumsum _ hne
  rw [hsum] at hmem
  have hlt : resampleIdx cfg n s k <
      (cumsum (List.ofFn (Pstates cfg n s))).length := by
    apply searchsorted_lt_length
    exact ⟨1, hmem, hU.le⟩
  rw [cumsum_length, List.length_ofFn] at hlt
  omega

lemma newXVal_eq_proposal (cfg : Config d nObs) (n : ℕ) (s : EngineState d)
    (k : ℕ) (h : resampleIdx cfg n s k < cfg.N + 1) :
    newXVal cfg n s k =
      Proposals cfg n s ⟨resampleIdx cfg n s k, h⟩ := by
  unfold newXVal
  have hlen : resampleIdx cfg n s k < (List.ofFn (Proposals cfg n s)).length := by
    rw [List.length_ofFn]
    exact h
  rw [List.getD_eq_getElem _ _ hlen, List.getElem_ofFn]

/-! ### The claims -/

/-- C1: for every iteration of the main loop (any configuration, any
reachable state, hence any finite vector of log-weights `LogPstates` over
the `N+1` proposals), the weight vector `Pstates` produced by the
normalization step — subtract the anchored log-sum-exp, then exponentiate
— consists of `N+1` non-negative reals summing exactly to 1 over exact
real arithmetic; and the same holds for an arbitrary finite log-weight
vector fed to the normalization. -/
theorem pstates_sum_one_nonneg :
    (∀ (d nObs : ℕ) (cfg : Config d nObs) (n : ℕ) (s : EngineState d),
      (∑ i, Pstates cfg n s i) = 1 ∧ ∀ i, 0 ≤ Pstates cfg n s i)
    ∧ ∀ (N : ℕ) (L : Fin (N + 1) → ℝ),
      (∑ i, normalizeFun L i) = 1 ∧ ∀ i, 0 ≤ normalizeFun L i := by
  constructor
  · intro d nObs cfg n s
    exact ⟨normalizeFun_sum_one _, fun i => normalizeFun_nonneg _ i⟩
  · intro N L
    exact ⟨normalizeFun_sum_one L, fun i => normalizeFun_nonneg L i⟩

/-- C2: for every finite (nonempty) log-weight vector, the implemented
normalization scheme — sort ascending, anchor at the minimum element, add
`log(1 + sum of exponentials of the rest)`, subtract back, exponentiate —
yields exactly the same weight vector as the naive scheme that
exponentiates each log-weight and divides by the sum of all exponentials,
over exact real arithmetic. -/
theorem stable_normalization_eq_naive (l : List ℝ) (h : l ≠ []) :
    stableNormalize l = naiveNormalize l :=
  stableNormalize_eq_naiveNormalize l h

theorem stable_normalization_eq_naive_witness :
    ([(0:ℝ)] ≠ [] ∧ stableNormalize [(0:ℝ)] = naiveNormalize [(0:ℝ)]) :=
  ⟨by simp, stable_normalization_eq_naive [(0:ℝ)] (by simp)⟩

/-- C3: in every iteration with 0-based loop index `n`, the approximate
posterior covariance, its Cholesky factor and its inverse are refreshed
from the accumulated weighted-covariance slots exactly when the guard
`n > 2*d/N` holds (which, for `N ≥ 1`, is equivalent to `2d < nN`); in
particular for `d = 2`, `N = 1` the guard fails for every `n ≤ 4` — so
through iteration 4 `ApprPostCov` still equals `InitCov` and
`CholApprPostCov` still equals the Cholesky factor of `InitCov` — and
holds at `n = 5`. -/
theorem covariance_refresh_guard (d nObs : ℕ) (cfg : Config d nObs) (n : ℕ)
    (s : EngineState d) (hN : 1 ≤ cfg.N) :
    ((step cfg n s).ApprPostCov =
      if covGuard d cfg.N n then covSlotMean cfg n s else s.ApprPostCov)
    ∧ ((step cfg n s).CholApprPostCov =
      if covGuard d cfg.N n then cfg.chol (covSlotMean cfg n s)
      else s.CholApprPostCov)
    ∧ ((step cfg n s).InvApprPostCov =
      if covGuard d cfg.N n then (covSlotMean cfg n s)⁻¹
      else s.ApprPostCov⁻¹)
    ∧ (covGuard d cfg.N n ↔ 2 * d < n * cfg.N)
    ∧ (d = 2 → cfg.N = 1 → n ≤ 4 →
        ¬ covGuard d cfg.N n ∧ covGuard d cfg.N 5 ∧
        (run cfg (n + 1)).ApprPostCov = cfg.InitCov ∧
        (run cfg (n + 1)).CholApprPostCov = cfg.chol cfg.InitCov) := by
  refine ⟨rfl, rfl, rfl, covGuard_iff d cfg.N n hN, ?_⟩
  intro hd hN1 hn4
  subst hd
  have hiff : ∀ m : ℕ, covGuard 2 cfg.N m ↔ 4 < m := by
    intro m
    rw [covGuard_iff 2 cfg.N m hN, hN1]
    omega
  have hrun := run_cov_unchanged cfg (n + 1)
    (fun m hm => by rw [hiff m]; omega)
  exact ⟨by rw [hiff n]; omega, by rw [hiff 5]; omega, hrun.1, hrun.2⟩

theorem covariance_refresh_guard_witness :
    1 ≤ cfgW2.N ∧ (run cfgW2 1).ApprPostCov = cfgW2.InitCov :=
  ⟨by decide,
    (((covariance_refresh_guard 2 1 cfgW2 0 (initState cfgW2)
      (by decide)).2.2.2.2) rfl rfl (by omega)).2.2.1⟩

/-- C4: after the moment-update step of every iteration with 0-based
index `n` (i.e. in the state `run cfg (n+1)`), the running posterior mean
equals the exact arithmetic mean of the weighted-sum slots `0..n+M`
inclusive — with the completed-iteration count `c = n+1` these are the
first `c+M` slots, the spec's counting — and every slot below `M` (the
seeded burn-in block) still holds the supplied initial mean. -/
theorem apprPostMean_slot_mean (d nObs : ℕ) (cfg : Config d nObs) (n k : ℕ)
    (hk : k < M cfg) :
    ((run cfg (n + 1)).ApprPostMean = fun j =>
      (∑ m ∈ Finset.range (n + M cfg + 1), (run cfg (n + 1)).WeightedSum m j) /
        ((n + M cfg + 1 : ℕ) : ℝ))
    ∧ (run cfg (n + 1)).WeightedSum k = cfg.InitMean :=
  ⟨rfl, run_weightedSum_seed cfg (n + 1) k hk⟩

theorem apprPostMean_slot_mean_witness :
    0 < M cfgW ∧ (run cfgW 1).WeightedSum 0 = cfgW.InitMean :=
  ⟨by decide, (apprPostMean_slot_mean 1 1 cfgW 0 0 (by decide)).2⟩

/-- C5 counterexample: for the concrete configuration `cfgC5` (`d = 1`,
`n_obs = 2`, `alpha = 1`, design matrix all ones) the constructed
precision matrix `InvG_prior` is not `(alpha * n_obs) • XᵀX`: the code
yields `(alpha / n_obs) • XᵀX = !![1]`, while the claimed formula gives
`!![4]`. -/
theorem gprior_precision_counterexample :
    InvG_prior cfgC5 ≠ (cfgC5.alpha * (2 : ℝ)) • (cfgC5.X.transpose * cfgC5.X) := by
  have hXX : cfgC5.X.transpose * cfgC5.X = (2 : ℝ) • (1 : Matrix (Fin 1) (Fin 1) ℝ) := by
    ext i j
    fin_cases i
    fin_cases j
    simp [cfgC5, Matrix.mul_apply, Fin.sum_univ_two, Matrix.transpose]
  have hinv : ((2 : ℝ) • (1 : Matrix (Fin 1) (Fin 1) ℝ))⁻¹
      = (1 / 2 : ℝ) • (1 : Matrix (Fin 1) (Fin 1) ℝ) := by
    apply Matrix.inv_eq_right_inv
    rw [Matrix.smul_mul, Matrix.mul_smul, smul_smul, Matrix.one_mul]
    norm_num
  have h1 : InvG_prior cfgC5 = 1 := by
    unfold InvG_prior G_prior
    rw [hXX, hinv]
    have hc : ((1 / cfgC5.alpha) / (1 / ((2:ℕ) : ℝ))) = 2 := by
      norm_num [cfgC5]
    rw [hc, smul_smul]
    norm_num
  have h2 : (cfgC5.alpha * (2 : ℝ)) • (cfgC5.X.transpose * cfgC5.X)
      = (4 : ℝ) • (1 : Matrix (Fin 1) (Fin 1) ℝ) := by
    rw [hXX, smul_smul]
    have : cfgC5.alpha * (2:ℝ) * 2 = 4 := by norm_num [cfgC5]
    rw [this]
  rw [h1, h2]
  intro h
  have h00 := congrFun (congrFun h 0) 0
  simp [Matrix.smul_apply, Matrix.one_apply] at h00

/-- C5 amended: at construction the engine derives the g-prior precision
matrix `InvG_prior = (alpha / n_obs) • XᵀX` — the inverse of the g-prior
covariance `G_prior = ((1/alpha) * n_obs) • (XᵀX)⁻¹` — computed once from
the configuration (it is a pure function of `cfg` and no loop state ever
stores or rewrites it). -/
theorem invG_prior_formula (d nObs : ℕ) (cfg : Config d nObs)
    (ha : cfg.alpha ≠ 0) (hn : (nObs : ℝ) ≠ 0)
    (hX : IsUnit (cfg.X.transpose * cfg.X).det) :
    InvG_prior cfg = (cfg.alpha / (nObs : ℝ)) • (cfg.X.transpose * cfg.X)
    ∧ G_prior cfg =
      ((1 / cfg.alpha) * (nObs : ℝ)) • (cfg.X.transpose * cfg.X)⁻¹ := by
  constructor
  · unfold InvG_prior G_prior
    apply Matrix.inv_eq_right_inv
    rw [Matrix.smul_mul, Matrix.mul_smul, smul_smul,
      Matrix.nonsing_inv_mul _ hX]
    have hc : ((1 / cfg.alpha) / (1 / (nObs : ℝ))) * (cfg.alpha / (nObs : ℝ)) = 1 := by
      field_simp
    rw [hc, one_smul]
  · unfold G_prior
    congr 1
    field_simp

theorem invG_prior_formula_witness :
    cfgC5.alpha ≠ 0 ∧
    InvG_prior cfgC5 = (cfgC5.alpha / ((2:ℕ) : ℝ)) • (cfgC5.X.transpose * cfgC5.X) := by
  have hdet : (cfgC5.X.transpose * cfgC5.X).det = 2 := by
    rw [Matrix.det_fin_one]
    simp [cfgC5, Matrix.mul_apply, Fin.sum_univ_two, Matrix.transpose]
  refine ⟨by norm_num [cfgC5], ?_⟩
  exact (invG_prior_formula 1 2 cfgC5 (by norm_num [cfgC5]) (by norm_num)
    (by rw [hdet]; exact isUnit_iff_ne_zero.mpr (by norm_num))).1

/-- C6: the engine reads the point stream in strictly sequential,
non-overlapping blocks of `N` rows — in iteration `n`, draw `k` touches
exactly row `n*N + k` — and with
`NumOfIter = ((2^p - 1)/(d+1))*(d+1)/N` (floor divisions) every accessed
row index is strictly below the stream length `2^p - 1`, for every
`d ≥ 1`, `N ≥ 1`, `p ≥ 1`. -/
theorem stream_access_in_bounds (d nObs : ℕ) (cfg : Config d nObs)
    (hd : 1 ≤ d) (hN : 1 ≤ cfg.N) (hp : 1 ≤ cfg.PowerOfTwo)
    (n k : ℕ) (hn : n < NumOfIter cfg) (hk : k < cfg.N) :
    (∀ j, U cfg n k j = cfg.xs (n * cfg.N + k) j)
    ∧ n * cfg.N + k < 2 ^ cfg.PowerOfTwo - 1 := by
  refine ⟨fun j => rfl, ?_⟩
  have h1 : n * cfg.N + k < (n + 1) * cfg.N := by
    have : n * cfg.N + k < n * cfg.N + cfg.N := by omega
    calc n * cfg.N + k < n * cfg.N + cfg.N := this
      _ = (n + 1) * cfg.N := by ring
  have h2 : (n + 1) * cfg.N ≤ NumOfIter cfg * cfg.N :=
    Nat.mul_le_mul_right _ hn
  have h3 : NumOfIter cfg * cfg.N ≤
      (2 ^ cfg.PowerOfTwo - 1) / (d + 1) * (d + 1) :=
    Nat.div_mul_le_self _ _
  have h4 : (2 ^ cfg.PowerOfTwo - 1) / (d + 1) * (d + 1) ≤
      2 ^ cfg.PowerOfTwo - 1 :=
    Nat.div_mul_le_self _ _
  omega

theorem stream_access_in_bounds_witness :
    0 < NumOfIter cfgW ∧ 0 * cfgW.N + 0 < 2 ^ cfgW.PowerOfTwo - 1 :=
  ⟨by decide,
    (stream_access_in_bounds 1 1 cfgW (by decide) (by decide) (by decide)
      0 0 (by decide) (by decide)).2⟩

/-- C7: in every iteration, whenever the unit-interval draws of the
stream's last column are below 1 (the stream contract), each resampling
index obtained by binary search of a draw against the cumulative weight
sum lies in `[0, N]` — in bounds for the `N+1`-element proposal set — and
the proposal at the last selected index becomes the new current state
`xI` carried into the next iteration. -/
theorem resampling_in_bounds (d nObs : ℕ) (cfg : Config d nObs) (n : ℕ)
    (s : EngineState d) (hN : 1 ≤ cfg.N)
    (hU : ∀ k, U cfg n k (Fin.last d) < 1) :
    (∀ k, resampleIdx cfg n s k ≤ cfg.N)
    ∧ ∃ h : resampleIdx cfg n s (cfg.N - 1) < cfg.N + 1,
        (step cfg n s).xI =
          Proposals cfg n s ⟨resampleIdx cfg n s (cfg.N - 1), h⟩ := by
  have hb : ∀ k, resampleIdx cfg n s k ≤ cfg.N :=
    fun k => resampleIdx_le cfg n s k (hU k)
  refine ⟨hb, Nat.lt_succ_of_le (hb _), ?_⟩
  exact newXVal_eq_proposal cfg n s _ _

theorem resampling_in_bounds_witness :
    1 ≤ cfgW.N ∧ resampleIdx cfgW 0 (initState cfgW) 0 ≤ cfgW.N :=
  ⟨by decide,
    (resampling_in_bounds 1 1 cfgW 0 (initState cfgW) (by decide)
      (fun k => show (0:ℝ) < 1 by norm_num)).1 0⟩

/-- C8: in every iteration, the symmetrized reverse-kernel correction
satisfies `LogKs[i] = (sum over all j of LogK[j]) - LogK[i]` for every
proposal index `i`, i.e. `LogKs[i]` equals the sum of the
log-transition-densities of all the other proposals. -/
theorem logKs_symmetrization (d nObs : ℕ) (cfg : Config d nObs) (n : ℕ)
    (s : EngineState d) (i : Fin (cfg.N + 1)) :
    LogKs cfg n s i = (∑ j, LogK_ni cfg n s j) - LogK_ni cfg n s i
    ∧ LogKs cfg n s i = ∑ j ∈ Finset.univ.erase i, LogK_ni cfg n s j := by
  refine ⟨rfl, ?_⟩
  rw [Finset.sum_erase_eq_sub (Finset.mem_univ i)]
  rfl

/-- C9: every query accessor is a pure read — for every burn-in argument
it returns the engine state unchanged (hence `xVals`, `AcceptVals`,
`WeightedSum`, `WeightedCov`, `ApprPostMean` and `ApprPostCov` are all
untouched), and calling it twice with the same argument returns the same
value. -/
theorem accessors_pure (d nObs : ℕ) (cfg : Config d nObs) (s : EngineState d)
    (Nq BurnIn : ℕ) :
    ((getSamples s BurnIn).2 = s
      ∧ (getAcceptRate s BurnIn).2 = s
      ∧ (getIS_MeanEstimate cfg s Nq BurnIn).2 = s
      ∧ (getIS_CovEstimate cfg s Nq BurnIn).2 = s)
    ∧ ((getSamples ((getSamples s BurnIn).2) BurnIn).1 = (getSamples s BurnIn).1
      ∧ (getAcceptRate ((getAcceptRate s BurnIn).2) BurnIn).1
          = (getAcceptRate s BurnIn).1
      ∧ (getIS_MeanEstimate cfg ((getIS_MeanEstimate cfg s Nq BurnIn).2) Nq BurnIn).1
          = (getIS_MeanEstimate cfg s Nq BurnIn).1
      ∧ (getIS_CovEstimate cfg ((getIS_CovEstimate cfg s Nq BurnIn).2) Nq BurnIn).1
          = (getIS_CovEstimate cfg s Nq BurnIn).1) :=
  ⟨⟨rfl, rfl, rfl, rfl⟩, rfl, rfl, rfl, rfl⟩

/-- C10: for every run prefix and every burn-in argument with
`BurnIn / N < NumOfIter + M`, `getIS_FunMeanEstimate` returns the
`d`-dimensional zero vector, because the `WeightedFunSum` accumulator is
initialised to zeros and never written by any loop iteration. -/
theorem funMeanEstimate_zero (d nObs : ℕ) (cfg : Config d nObs)
    (n Nq BurnIn : ℕ) (h : BurnIn / Nq < NumOfIter cfg + M cfg) :
    (run cfg n).WeightedFunSum = (fun _ _ => 0)
    ∧ (getIS_FunMeanEstimate cfg (run cfg n) Nq BurnIn).1 = fun _ => 0 := by
  refine ⟨run_weightedFunSum cfg n, ?_⟩
  funext j
  show (∑ k ∈ Finset.Ico (BurnIn / Nq) (NumOfIter cfg + M cfg),
      (run cfg n).WeightedFunSum k j) /
      ((NumOfIter cfg + M cfg - BurnIn / Nq : ℕ) : ℝ) = 0
  rw [run_weightedFunSum cfg n]
  simp

theorem funMeanEstimate_zero_witness :
    0 / 1 < NumOfIter cfgW + M cfgW
    ∧ (getIS_FunMeanEstimate cfgW (run cfgW 0) 1 0).1 = fun _ => 0 :=
  ⟨by decide, (funMeanEstimate_zero 1 1 cfgW 0 1 0 (by decide)).2⟩

end MPQMCMC
